import Mathlib

/-!
Shallow embedding of the inline-diff review engine of the
obsidian-claude-code-ide plugin.

Sources embedded here:
- the chunk computation module (computeDiffChunks, groupDiffsIntoChunks,
  finalizeChunk, applyChunks) together with its types module
  (DiffChunk, ChunkDecision);
- the decision state machine of src/ide/inline-diff/diff-state.ts
  (updateChunkStatus, the accept-all / reject-all effect branches of
  inlineDiffStateField.update, getPendingChunksCount,
  areAllChunksProcessed, getAcceptedChunks).

Modelling conventions:
- Document content and chunk texts are represented as List Char.
  JavaScript's result.substring(0, a) on a natural index a is List.take a
  and result.substring(b) is List.drop b: both clamp an index past the end
  of the string to the length, exactly as substring does.
- The elementary diff entries are the [op, text] pairs of the external
  diff-match-patch library (DIFF_DELETE = -1, DIFF_INSERT = 1,
  DIFF_EQUAL = 0), embedded as a structure with an op tag and a text.
  The library itself (diff_main, diff_cleanupSemantic) is an external npm
  dependency, not code of this repository, so it is not embedded; the
  grouping and application functions are quantified over arbitrary op
  sequences, which covers every sequence the library can produce.
- generateChunkId in the source builds an id from Date.now() plus a random
  suffix.  That is nondeterministic, so the embedding threads a per-call
  counter through the grouping fold and renders id number n as
  "chunk_" ++ toString n.  No claim depends on the id scheme beyond ids
  being compared for equality.
- JavaScript Array.prototype.sort with comparator
  (a, b) => b.oldRange.from - a.oldRange.from is a stable descending sort
  on oldRange.from; it is embedded as a stable insertion sort, which
  produces the same permutation.
- The TypeScript field name `from` is a Lean keyword, so ranges use
  `fromPos` for it and `toPos` for `to` (also a keyword).
-/

/-- Elementary diff operation tag of the diff-match-patch library. -/
inductive DiffOp where
  | delete
  | insert
  | equal
deriving DecidableEq, Repr

/-- One elementary diff entry: an [op, text] pair. -/
structure Diff where
  op : DiffOp
  text : List Char
deriving DecidableEq, Repr

/-- Half-open offset range, the source's \x7b from, to \x7d objects. -/
structure ChunkRange where
  fromPos : Nat
  toPos : Nat
deriving DecidableEq, Repr

/-- Chunk kind, derived by finalizeChunk from text emptiness. -/
inductive ChunkType where
  | change
  | insert
  | delete
deriving DecidableEq, Repr

/-- Per-chunk decision status. -/
inductive ChunkStatus where
  | pending
  | accepted
  | rejected
deriving DecidableEq, Repr

/-- The DiffChunk interface of the types module. -/
structure DiffChunk where
  id : String
  type : ChunkType
  oldRange : ChunkRange
  newRange : ChunkRange
  oldText : List Char
  newText : List Char
  status : ChunkStatus
deriving DecidableEq, Repr

/-- The ChunkDecision interface of the types module. -/
structure ChunkDecision where
  chunkId : String
  accepted : Bool
deriving DecidableEq, Repr

/-- The Partial DiffChunk accumulator of groupDiffsIntoChunks: every field
the source initialises when it opens a chunk, i.e. everything but the
derived type field. -/
structure OpenChunk where
  id : String
  oldRange : ChunkRange
  newRange : ChunkRange
  oldText : List Char
  newText : List Char
  status : ChunkStatus
deriving DecidableEq, Repr

/-- generateChunkId: the source uses Date.now() plus a random base-36
suffix; the embedding renders the n-th id deterministically. -/
def generateChunkId (n : Nat) : String :=
  "chunk_" ++ toString n

/-- The chunk object the source creates when an edit op arrives and no
chunk is open. -/
def openChunkAt (n oldPos newPos : Nat) : OpenChunk :=
  { id := generateChunkId n
    oldRange := { fromPos := oldPos, toPos := oldPos }
    newRange := { fromPos := newPos, toPos := newPos }
    oldText := []
    newText := []
    status := ChunkStatus.pending }

/-- finalizeChunk: derive the chunk type from which texts are non-empty
(JavaScript truthiness of a string is non-emptiness) and emit the chunk. -/
def finalizeChunk (c : OpenChunk) : DiffChunk :=
  { id := c.id
    type :=
      if c.oldText ≠ [] ∧ c.newText ≠ [] then ChunkType.change
      else if c.newText ≠ [] then ChunkType.insert
      else ChunkType.delete
    oldRange := c.oldRange
    newRange := c.newRange
    oldText := c.oldText
    newText := c.newText
    status := c.status }

/-- The loop state of groupDiffsIntoChunks: emitted chunks, the open
chunk if any, both position cursors, the unchanged-run counter, and the
id counter of the embedding. -/
structure GroupState where
  chunks : List DiffChunk
  currentChunk : Option OpenChunk
  oldPos : Nat
  newPos : Nat
  unchangedCount : Nat
  nextId : Nat
deriving Repr

/-- Initial loop state of groupDiffsIntoChunks. -/
def initGroupState : GroupState :=
  { chunks := []
    currentChunk := none
    oldPos := 0
    newPos := 0
    unchangedCount := 0
    nextId := 0 }

/-- One iteration of the for-loop of groupDiffsIntoChunks on a single
diff entry. -/
def stepDiff (minGapSize : Nat) (s : GroupState) (d : Diff) : GroupState :=
  let textLength := d.text.length
  match d.op with
  | DiffOp.equal =>
    let unchangedCount := s.unchangedCount + textLength
    match s.currentChunk with
    | some c =>
      if minGapSize ≤ unchangedCount then
        { chunks := s.chunks ++ [finalizeChunk c]
          currentChunk := none
          oldPos := s.oldPos + textLength
          newPos := s.newPos + textLength
          unchangedCount := 0
          nextId := s.nextId }
      else
        { s with
            unchangedCount := unchangedCount
            oldPos := s.oldPos + textLength
            newPos := s.newPos + textLength }
    | none =>
      { s with
          unchangedCount := unchangedCount
          oldPos := s.oldPos + textLength
          newPos := s.newPos + textLength }
  | DiffOp.delete =>
    let opened :=
      match s.currentChunk with
      | some c => (c, s.nextId)
      | none => (openChunkAt s.nextId s.oldPos s.newPos, s.nextId + 1)
    let c := opened.1
    { chunks := s.chunks
      currentChunk := some
        { c with
            oldText := c.oldText ++ d.text
            oldRange := { fromPos := c.oldRange.fromPos, toPos := s.oldPos + textLength } }
      oldPos := s.oldPos + textLength
      newPos := s.newPos
      unchangedCount := 0
      nextId := opened.2 }
  | DiffOp.insert =>
    let opened :=
      match s.currentChunk with
      | some c => (c, s.nextId)
      | none => (openChunkAt s.nextId s.oldPos s.newPos, s.nextId + 1)
    let c := opened.1
    { chunks := s.chunks
      currentChunk := some
        { c with
            newText := c.newText ++ d.text
            newRange := { fromPos := c.newRange.fromPos, toPos := s.newPos + textLength } }
      oldPos := s.oldPos
      newPos := s.newPos + textLength
      unchangedCount := 0
      nextId := opened.2 }

/-- groupDiffsIntoChunks: fold the loop body over the diff entries and
finalize any still-open chunk. -/
def groupDiffsIntoChunks (diffs : List Diff) (minGapSize : Nat) : List DiffChunk :=
  let s := diffs.foldl (stepDiff minGapSize) initGroupState
  match s.currentChunk with
  | some c => s.chunks ++ [finalizeChunk c]
  | none => s.chunks

/-- computeDiffChunks: the source instantiates the external
diff-match-patch library, runs diff_main plus diff_cleanupSemantic on the
two contents, and groups the result.  The external differ is abstracted
as a parameter; the source's default minGapSize is 50. -/
def computeDiffChunks (diffEngine : List Char → List Char → List Diff)
    (oldContent newContent : List Char) (minGapSize : Nat) : List DiffChunk :=
  groupDiffsIntoChunks (diffEngine oldContent newContent) minGapSize

/-- Concatenation of the old-side text of a diff sequence (EQUAL and
DELETE entries).  A correct differ returns a sequence whose old side is
exactly the old input. -/
def diffsOldText (diffs : List Diff) : List Char :=
  ((diffs.filter (fun d => d.op ≠ DiffOp.insert)).map Diff.text).flatten

/-- Concatenation of the new-side text of a diff sequence (EQUAL and
INSERT entries). -/
def diffsNewText (diffs : List Diff) : List Char :=
  ((diffs.filter (fun d => d.op ≠ DiffOp.delete)).map Diff.text).flatten

/-- A diff sequence is a valid edit script from oldContent to newContent
when its old side concatenates to oldContent and its new side to
newContent.  This is the documented contract of the external differ
(any two strings produce a valid edit script). -/
def ValidDiff (diffs : List Diff) (oldContent newContent : List Char) : Prop :=
  diffsOldText diffs = oldContent ∧ diffsNewText diffs = newContent

/-- Stable insertion into a list sorted descending by oldRange.fromPos:
the inserted chunk goes after every earlier chunk with a greater-or-equal
key, matching JavaScript's stable sort with comparator
(a, b) => b.oldRange.from - a.oldRange.from. -/
def insertByFromDesc (c : DiffChunk) : List DiffChunk → List DiffChunk
  | [] => [c]
  | b :: l =>
    if b.oldRange.fromPos ≤ c.oldRange.fromPos then c :: b :: l
    else b :: insertByFromDesc c l

/-- Stable descending sort by oldRange.fromPos. -/
def sortByFromDesc : List DiffChunk → List DiffChunk
  | [] => []
  | c :: l => insertByFromDesc c (sortByFromDesc l)

/-- applyChunks: collect the ids marked accepted in the decisions, keep
the chunks with those ids, sort them descending by oldRange.from, and
splice each one's newText over its oldRange in the original content. -/
def applyChunks (originalContent : List Char) (chunks : List DiffChunk)
    (decisions : List ChunkDecision) : List Char :=
  let acceptedIds := (decisions.filter (fun d => d.accepted)).map (fun d => d.chunkId)
  let sortedChunks := sortByFromDesc (chunks.filter (fun c => acceptedIds.contains c.id))
  sortedChunks.foldl
    (fun result c =>
      result.take c.oldRange.fromPos ++ c.newText ++ result.drop c.oldRange.toPos)
    originalContent

/-- The InlineDiffState interface of the types module. -/
structure InlineDiffState where
  filePath : String
  chunks : List DiffChunk
  originalContent : List Char
  targetContent : List Char
deriving DecidableEq, Repr

/-- updateChunkStatus of diff-state.ts: set the status of every chunk
whose id matches, leave the others alone. -/
def updateChunkStatus (state : InlineDiffState) (chunkId : String)
    (status : ChunkStatus) : InlineDiffState :=
  { state with
      chunks := state.chunks.map (fun c =>
        if c.id = chunkId then { c with status := status } else c) }

/-- The acceptChunkEffect branch of inlineDiffStateField.update. -/
def acceptChunk (state : InlineDiffState) (chunkId : String) : InlineDiffState :=
  updateChunkStatus state chunkId ChunkStatus.accepted

/-- The rejectChunkEffect branch of inlineDiffStateField.update. -/
def rejectChunk (state : InlineDiffState) (chunkId : String) : InlineDiffState :=
  updateChunkStatus state chunkId ChunkStatus.rejected

/-- The acceptAllChunksEffect branch of inlineDiffStateField.update:
map every pending chunk to accepted, keep the rest. -/
def acceptAllChunks (state : InlineDiffState) : InlineDiffState :=
  { state with
      chunks := state.chunks.map (fun c =>
        if c.status = ChunkStatus.pending then { c with status := ChunkStatus.accepted }
        else c) }

/-- The rejectAllChunksEffect branch of inlineDiffStateField.update:
map every pending chunk to rejected, keep the rest. -/
def rejectAllChunks (state : InlineDiffState) : InlineDiffState :=
  { state with
      chunks := state.chunks.map (fun c =>
        if c.status = ChunkStatus.pending then { c with status := ChunkStatus.rejected }
        else c) }

/-- getPendingChunksCount of diff-state.ts (null maps to none). -/
def getPendingChunksCount (state : Option InlineDiffState) : Nat :=
  match state with
  | none => 0
  | some s => (s.chunks.filter (fun c => c.status = ChunkStatus.pending)).length

/-- areAllChunksProcessed of diff-state.ts (null maps to none). -/
def areAllChunksProcessed (state : Option InlineDiffState) : Bool :=
  match state with
  | none => false
  | some s => s.chunks.all (fun c => c.status ≠ ChunkStatus.pending)

/-- getAcceptedChunks of diff-state.ts (null maps to none). -/
def getAcceptedChunks (state : Option InlineDiffState) : List DiffChunk :=
  match state with
  | none => []
  | some s => s.chunks.filter (fun c => c.status = ChunkStatus.accepted)

/-- Total text length of a diff sequence segment. -/
def eqsLen (l : List Diff) : Nat :=
  (l.map (fun d => d.text.length)).sum

/-- Two chunks agree on everything applyChunks reads: id, both ranges and
both texts.  Only the status field may differ. -/
def SameCore (a b : DiffChunk) : Prop :=
  a.id = b.id ∧ a.oldRange = b.oldRange ∧ a.newRange = b.newRange ∧
    a.oldText = b.oldText ∧ a.newText = b.newText

/-- A chunk's recorded ranges are at least as long as its recorded texts. -/
def ChunkSpanLe (c : DiffChunk) : Prop :=
  c.oldRange.fromPos + c.oldText.length ≤ c.oldRange.toPos ∧
    c.newRange.fromPos + c.newText.length ≤ c.newRange.toPos

/-- ChunkSpanLe for a not-yet-finalized chunk. -/
def OpenSpanLe (c : OpenChunk) : Prop :=
  c.oldRange.fromPos + c.oldText.length ≤ c.oldRange.toPos ∧
    c.newRange.fromPos + c.newText.length ≤ c.newRange.toPos

/-- Chunk a ends (on both sides) no later than chunk b starts. -/
def ChunkBefore (a b : DiffChunk) : Prop :=
  a.oldRange.toPos ≤ b.oldRange.fromPos ∧ a.newRange.toPos ≤ b.newRange.fromPos

/-- Loop invariant of groupDiffsIntoChunks relating the emitted chunks,
the open chunk and the two position cursors. -/
structure GroupInv (s : GroupState) : Prop where
  emitted_span : ∀ c ∈ s.chunks, ChunkSpanLe c
  emitted_le : ∀ c ∈ s.chunks, c.oldRange.toPos ≤ s.oldPos ∧ c.newRange.toPos ≤ s.newPos
  emitted_sorted : s.chunks.Pairwise ChunkBefore
  open_span : ∀ c, s.currentChunk = some c → OpenSpanLe c
  open_le : ∀ c, s.currentChunk = some c →
    c.oldRange.toPos ≤ s.oldPos ∧ c.newRange.toPos ≤ s.newPos
  emitted_before_open : ∀ e ∈ s.chunks, ∀ c, s.currentChunk = some c →
    e.oldRange.toPos ≤ c.oldRange.fromPos ∧ e.newRange.toPos ≤ c.newRange.fromPos

/-- Mapping a function over a list leaves it unchanged when the function
fixes every member. -/
theorem map_members_fixed {α : Type} (l : List α) (f : α → α)
    (h : ∀ a ∈ l, f a = a) : l.map f = l := by
  induction l with
  | nil => rfl
  | cons a l ih =>
    simp only [List.map_cons, h a (List.mem_cons_self a l)]
    rw [ih (fun b hb => h b (List.mem_cons_of_mem a hb))]

/-- Folding the grouping step over EQUAL entries with no open chunk
emits nothing and opens nothing. -/
theorem foldl_equal_none (gap : Nat) :
    ∀ (diffs : List Diff), (∀ d ∈ diffs, d.op = DiffOp.equal) →
    ∀ s : GroupState, s.currentChunk = none →
      (diffs.foldl (stepDiff gap) s).currentChunk = none ∧
      (diffs.foldl (stepDiff gap) s).chunks = s.chunks := by
  intro diffs
  induction diffs with
  | nil => intro _ s hs; exact ⟨hs, rfl⟩
  | cons d rest ih =>
    intro h s hs
    have hd : d.op = DiffOp.equal := h d (List.mem_cons_self d rest)
    have hstep : stepDiff gap s d =
        { s with
            unchangedCount := s.unchangedCount + d.text.length
            oldPos := s.oldPos + d.text.length
            newPos := s.newPos + d.text.length } := by
      simp [stepDiff, hd, hs]
    rw [List.foldl_cons, hstep]
    exact ih (fun d' hd' => h d' (List.mem_cons_of_mem d hd')) _ hs

/-- applyChunks with no accepted decision returns the original content,
whatever the chunk list is. -/
theorem applyChunks_no_accept (original : List Char) (chunks : List DiffChunk)
    (decisions : List ChunkDecision) (h : ∀ d ∈ decisions, d.accepted = false) :
    applyChunks original chunks decisions = original := by
  have hfil : decisions.filter (fun d => d.accepted) = [] :=
    List.filter_eq_nil_iff.mpr (fun d hd => by simp [h d hd])
  have hfil2 : chunks.filter
      (fun c => (([] : List ChunkDecision).map (fun d => d.chunkId)).contains c.id) = [] :=
    List.filter_eq_nil_iff.mpr (fun c _ => by simp)
  simp only [applyChunks, hfil, hfil2, sortByFromDesc, List.foldl_nil]

/-- C7: Identity.  If every decision carries accepted = false (hence also
when the decision list is empty), applyChunks on the chunks computed by
the diff pipeline returns the original content exactly. -/
theorem applyChunks_identity_when_none_accepted
    (diffEngine : List Char → List Char → List Diff)
    (oldContent newContent : List Char) (minGapSize : Nat)
    (decisions : List ChunkDecision)
    (h : ∀ d ∈ decisions, d.accepted = false) :
    applyChunks oldContent (computeDiffChunks diffEngine oldContent newContent minGapSize)
      decisions = oldContent :=
  applyChunks_no_accept _ _ _ h

/-- Witness for the identity theorem at a concrete input. -/
theorem applyChunks_identity_when_none_accepted_witness :
    applyChunks "Hello world".toList
      (computeDiffChunks
        (fun _ _ => [⟨DiffOp.equal, "Hello ".toList⟩, ⟨DiffOp.delete, "world".toList⟩,
                     ⟨DiffOp.insert, "universe".toList⟩])
        "Hello world".toList "Hello universe".toList 50)
      [⟨"chunk_0", false⟩] = "Hello world".toList :=
  applyChunks_identity_when_none_accepted _ _ _ _ _ (by decide)

/-- C8: No-op diff.  A diff sequence consisting only of EQUAL entries
(what a correct differ returns when the two contents coincide: either no
entries at all or one EQUAL entry holding the whole content) groups into
the empty chunk list, and a non-null diff state whose chunk list is empty
is reported fully processed, not an error. -/
theorem noop_diff_grouped_empty_and_fully_processed
    (diffs : List Diff) (minGapSize : Nat)
    (hall : ∀ d ∈ diffs, d.op = DiffOp.equal)
    (s : InlineDiffState) (hs : s.chunks = []) :
    groupDiffsIntoChunks diffs minGapSize = [] ∧
      areAllChunksProcessed (some s) = true := by
  have h := foldl_equal_none minGapSize diffs hall initGroupState rfl
  constructor
  · simp only [groupDiffsIntoChunks, h.1, h.2]
    rfl
  · simp [areAllChunksProcessed, hs]

/-- Witness for the no-op diff theorem at a concrete input. -/
theorem noop_diff_grouped_empty_and_fully_processed_witness :
    groupDiffsIntoChunks [⟨DiffOp.equal, "same text".toList⟩] 50 = [] ∧
      areAllChunksProcessed (some ⟨"notes.md", [], "same text".toList, "same text".toList⟩) = true :=
  noop_diff_grouped_empty_and_fully_processed _ 50 (by decide) _ rfl

/-- C4 counterexample: updateChunkStatus does not check the current
status.  On a state whose only chunk is already rejected, the accept
command changes the chunks (to accepted) instead of being a no-op. -/
theorem updateChunkStatus_flips_rejected_counterexample :
    (updateChunkStatus
      { filePath := "notes.md"
        chunks := [{ id := "c1", type := ChunkType.change,
                     oldRange := ⟨0, 1⟩, newRange := ⟨0, 1⟩,
                     oldText := ['a'], newText := ['b'],
                     status := ChunkStatus.rejected }]
        originalContent := ['a'], targetContent := ['b'] }
      "c1" ChunkStatus.accepted).chunks ≠
      [{ id := "c1", type := ChunkType.change,
         oldRange := ⟨0, 1⟩, newRange := ⟨0, 1⟩,
         oldText := ['a'], newText := ['b'],
         status := ChunkStatus.rejected }] ∧
    ((updateChunkStatus
      { filePath := "notes.md"
        chunks := [{ id := "c1", type := ChunkType.change,
                     oldRange := ⟨0, 1⟩, newRange := ⟨0, 1⟩,
                     oldText := ['a'], newText := ['b'],
                     status := ChunkStatus.rejected }]
        originalContent := ['a'], targetContent := ['b'] }
      "c1" ChunkStatus.accepted).chunks.map (fun c => c.status)) =
      [ChunkStatus.accepted] := by
  constructor
  · decide
  · decide

/-- C4 amended: updateChunkStatus transitions the named chunk to the
given status regardless of its current status (so a later accept command
does flip a rejected chunk, and vice versa); only acting on an id that no
chunk bears is a no-op. -/
theorem updateChunkStatus_unconditional (s : InlineDiffState) (chunkId : String)
    (status : ChunkStatus) :
    ((∀ c ∈ s.chunks, c.id ≠ chunkId) → updateChunkStatus s chunkId status = s) ∧
    (∀ c ∈ (updateChunkStatus s chunkId status).chunks,
      c.id = chunkId → c.status = status) := by
  constructor
  · intro h
    have hmap : s.chunks.map
        (fun c => if c.id = chunkId then { c with status := status } else c) = s.chunks :=
      map_members_fixed _ _ (fun c hc => by simp [h c hc])
    simp only [updateChunkStatus, hmap]
  · intro c hc hid
    simp only [updateChunkStatus, List.mem_map] at hc
    obtain ⟨a, _, ha⟩ := hc
    by_cases h : a.id = chunkId
    · rw [← ha]; simp [h]
    · rw [← ha] at hid; simp [h] at hid

/-- Witness for the amended updateChunkStatus theorem: accepting an id no
chunk bears leaves the state unchanged, and after accepting c1 every
chunk named c1 is accepted. -/
theorem updateChunkStatus_unconditional_witness :
    updateChunkStatus
      { filePath := "w.md"
        chunks := [{ id := "c7", type := ChunkType.insert,
                     oldRange := ⟨2, 2⟩, newRange := ⟨2, 5⟩,
                     oldText := [], newText := ['x', 'y', 'z'],
                     status := ChunkStatus.pending }]
        originalContent := ['a'], targetContent := ['b'] }
      "missing" ChunkStatus.accepted =
      { filePath := "w.md"
        chunks := [{ id := "c7", type := ChunkType.insert,
                     oldRange := ⟨2, 2⟩, newRange := ⟨2, 5⟩,
                     oldText := [], newText := ['x', 'y', 'z'],
                     status := ChunkStatus.pending }]
        originalContent := ['a'], targetContent := ['b'] } :=
  (updateChunkStatus_unconditional _ "missing" ChunkStatus.accepted).1 (by decide)

/-- C5: the accept-all and reject-all branches transition exactly the
pending chunks.  The chunk at any position i of the result is the chunk
at position i of the input, accepted (respectively rejected) when it was
pending and untouched otherwise. -/
theorem allChunks_transition_pending_only (s : InlineDiffState) (i : Nat)
    (c : DiffChunk) (h : s.chunks[i]? = some c) :
    (acceptAllChunks s).chunks[i]? =
      some (if c.status = ChunkStatus.pending
            then { c with status := ChunkStatus.accepted } else c) ∧
    (rejectAllChunks s).chunks[i]? =
      some (if c.status = ChunkStatus.pending
            then { c with status := ChunkStatus.rejected } else c) := by
  constructor
  · simp only [acceptAllChunks, List.getElem?_map, h, Option.map_some']
  · simp only [rejectAllChunks, List.getElem?_map, h, Option.map_some']

/-- Witness for the accept-all / reject-all theorem: on a state holding a
pending chunk at position 0 and a rejected chunk at position 1, accept-all
accepts the pending one and leaves the rejected one rejected. -/
theorem allChunks_transition_pending_only_witness :
    (acceptAllChunks
      { filePath := "w.md"
        chunks := [{ id := "c1", type := ChunkType.delete,
                     oldRange := ⟨0, 1⟩, newRange := ⟨0, 0⟩,
                     oldText := ['a'], newText := [],
                     status := ChunkStatus.pending },
                   { id := "c2", type := ChunkType.insert,
                     oldRange := ⟨3, 3⟩, newRange := ⟨2, 3⟩,
                     oldText := [], newText := ['b'],
                     status := ChunkStatus.rejected }]
        originalContent := [], targetContent := [] }).chunks[1]? =
      some { id := "c2", type := ChunkType.insert,
             oldRange := ⟨3, 3⟩, newRange := ⟨2, 3⟩,
             oldText := [], newText := ['b'],
             status := ChunkStatus.rejected } ∧
    (rejectAllChunks
      { filePath := "w.md"
        chunks := [{ id := "c1", type := ChunkType.delete,
                     oldRange := ⟨0, 1⟩, newRange := ⟨0, 0⟩,
                     oldText := ['a'], newText := [],
                     status := ChunkStatus.pending },
                   { id := "c2", type := ChunkType.insert,
                     oldRange := ⟨3, 3⟩, newRange := ⟨2, 3⟩,
                     oldText := [], newText := ['b'],
                     status := ChunkStatus.rejected }]
        originalContent := [], targetContent := [] }).chunks[1]? =
      some { id := "c2", type := ChunkType.insert,
             oldRange := ⟨3, 3⟩, newRange := ⟨2, 3⟩,
             oldText := [], newText := ['b'],
             status := ChunkStatus.rejected } :=
  allChunks_transition_pending_only _ 1
    { id := "c2", type := ChunkType.insert,
      oldRange := ⟨3, 3⟩, newRange := ⟨2, 3⟩,
      oldText := [], newText := ['b'],
      status := ChunkStatus.rejected } rfl

/-- C3 counterexample: applyChunks never aborts.  Here the only accepted
chunk records oldRange \x7b from: 5, to: 9 \x7d against an original of
length 2; instead of reporting an error and producing no output,
applyChunks silently applies the chunk with both indices clamped to the
string length (substring semantics) and returns the string "abX". -/
theorem applyChunks_out_of_bounds_counterexample :
    ("ab".toList.length < 5) ∧
    applyChunks "ab".toList
      [{ id := "c1", type := ChunkType.change,
         oldRange := ⟨5, 9⟩, newRange := ⟨0, 1⟩,
         oldText := "xyzw".toList, newText := "X".toList,
         status := ChunkStatus.pending }]
      [⟨"c1", true⟩] = "abX".toList ∧
    "abX".toList ≠ "ab".toList := by
  refine ⟨by decide, by decide, by decide⟩

/-- C3 amended: applyChunks performs no bounds validation and cannot
fail.  An accepted chunk whose oldRange lies entirely at or beyond the
end of the original content is still applied: both substring indices
clamp to the content length, so its newText is appended at the end. -/
theorem applyChunks_clamps_out_of_bounds (original : List Char) (c : DiffChunk)
    (hfrom : original.length ≤ c.oldRange.fromPos)
    (hto : original.length ≤ c.oldRange.toPos) :
    applyChunks original [c] [⟨c.id, true⟩] = original ++ c.newText := by
  have hacc : ([(⟨c.id, true⟩ : ChunkDecision)].filter (fun d => d.accepted)) =
      [⟨c.id, true⟩] := rfl
  simp only [applyChunks, hacc, List.map_cons, List.map_nil]
  have hfc : ([c].filter (fun x => [c.id].contains x.id)) = [c] := by
    simp [List.contains]
  rw [hfc]
  simp only [sortByFromDesc, insertByFromDesc, List.foldl_cons, List.foldl_nil]
  rw [List.take_of_length_le hfrom, List.drop_eq_nil_of_le hto, List.append_nil]

/-- Witness for the clamping theorem: an accepted chunk spanning offsets
3 to 7 of a 2-character original appends its newText at the end. -/
theorem applyChunks_clamps_out_of_bounds_witness :
    applyChunks "hi".toList
      [{ id := "c9", type := ChunkType.change,
         oldRange := ⟨3, 7⟩, newRange := ⟨0, 2⟩,
         oldText := "stufffff".toList, newText := "ZZ".toList,
         status := ChunkStatus.pending }]
      [⟨"c9", true⟩] = "hi".toList ++ "ZZ".toList :=
  applyChunks_clamps_out_of_bounds _ _ (by decide) (by decide)

/-- C1: round-trip failure (code bug).  The diff sequence below is a
valid (indeed minimal) edit script from "XabcdefghY" to "PabcdefghQ", and
its middle EQUAL run of 8 characters is kept by the semantic cleanup of
the external differ because it is longer than the 1-character edits
around it.  Being shorter than the default minGapSize of 50, the run is
swallowed into a single chunk whose oldRange spans it but whose newText
omits it, so accepting every produced chunk yields "PQ": the unchanged
middle text is silently deleted instead of reproducing the new content. -/
theorem roundtrip_accept_all_failure :
    ValidDiff
      [⟨DiffOp.delete, "X".toList⟩, ⟨DiffOp.insert, "P".toList⟩,
       ⟨DiffOp.equal, "abcdefgh".toList⟩, ⟨DiffOp.delete, "Y".toList⟩,
       ⟨DiffOp.insert, "Q".toList⟩]
      "XabcdefghY".toList "PabcdefghQ".toList ∧
    (let chunks := groupDiffsIntoChunks
      [⟨DiffOp.delete, "X".toList⟩, ⟨DiffOp.insert, "P".toList⟩,
       ⟨DiffOp.equal, "abcdefgh".toList⟩, ⟨DiffOp.delete, "Y".toList⟩,
       ⟨DiffOp.insert, "Q".toList⟩] 50
     applyChunks "XabcdefghY".toList chunks
       (chunks.map (fun c => ⟨c.id, true⟩)) = "PQ".toList) ∧
    "PQ".toList ≠ "PabcdefghQ".toList := by
  refine ⟨⟨rfl, rfl⟩, rfl, by decide⟩

/-- stepDiff on an EQUAL entry with no open chunk only advances the
cursors and the unchanged-run counter. -/
theorem stepDiff_equal_noneEq (gap : Nat) (s : GroupState) (d : Diff)
    (hop : d.op = DiffOp.equal) (hcur : s.currentChunk = none) :
    stepDiff gap s d =
      { s with
          unchangedCount := s.unchangedCount + d.text.length
          oldPos := s.oldPos + d.text.length
          newPos := s.newPos + d.text.length } := by
  simp [stepDiff, hop, hcur]

/-- stepDiff on an EQUAL entry with an open chunk and a gap reaching the
threshold finalizes the open chunk. -/
theorem stepDiff_equal_closeEq (gap : Nat) (s : GroupState) (d : Diff) (c : OpenChunk)
    (hop : d.op = DiffOp.equal) (hcur : s.currentChunk = some c)
    (hge : gap ≤ s.unchangedCount + d.text.length) :
    stepDiff gap s d =
      { chunks := s.chunks ++ [finalizeChunk c]
        currentChunk := none
        oldPos := s.oldPos + d.text.length
        newPos := s.newPos + d.text.length
        unchangedCount := 0
        nextId := s.nextId } := by
  simp [stepDiff, hop, hcur, hge]

/-- stepDiff on an EQUAL entry with an open chunk and a gap below the
threshold keeps the chunk open and untouched. -/
theorem stepDiff_equal_stayEq (gap : Nat) (s : GroupState) (d : Diff) (c : OpenChunk)
    (hop : d.op = DiffOp.equal) (hcur : s.currentChunk = some c)
    (hlt : s.unchangedCount + d.text.length < gap) :
    stepDiff gap s d =
      { s with
          unchangedCount := s.unchangedCount + d.text.length
          oldPos := s.oldPos + d.text.length
          newPos := s.newPos + d.text.length } := by
  simp [stepDiff, hop, hcur, Nat.not_le.mpr hlt]

/-- stepDiff on a DELETE entry with an open chunk appends the text to
oldText and extends oldRange.to to the new old cursor. -/
theorem stepDiff_delete_someEq (gap : Nat) (s : GroupState) (d : Diff) (c : OpenChunk)
    (hop : d.op = DiffOp.delete) (hcur : s.currentChunk = some c) :
    stepDiff gap s d =
      { chunks := s.chunks
        currentChunk := some
          { c with
              oldText := c.oldText ++ d.text
              oldRange := ⟨c.oldRange.fromPos, s.oldPos + d.text.length⟩ }
        oldPos := s.oldPos + d.text.length
        newPos := s.newPos
        unchangedCount := 0
        nextId := s.nextId } := by
  simp [stepDiff, hop, hcur]

/-- stepDiff on a DELETE entry with no open chunk opens one at the
current cursors. -/
theorem stepDiff_delete_noneEq (gap : Nat) (s : GroupState) (d : Diff)
    (hop : d.op = DiffOp.delete) (hcur : s.currentChunk = none) :
    stepDiff gap s d =
      { chunks := s.chunks
        currentChunk := some
          { id := generateChunkId s.nextId
            oldRange := ⟨s.oldPos, s.oldPos + d.text.length⟩
            newRange := ⟨s.newPos, s.newPos⟩
            oldText := d.text
            newText := []
            status := ChunkStatus.pending }
        oldPos := s.oldPos + d.text.length
        newPos := s.newPos
        unchangedCount := 0
        nextId := s.nextId + 1 } := by
  simp [stepDiff, hop, hcur, openChunkAt]

/-- stepDiff on an INSERT entry with an open chunk appends the text to
newText and extends newRange.to to the new cursor. -/
theorem stepDiff_insert_someEq (gap : Nat) (s : GroupState) (d : Diff) (c : OpenChunk)
    (hop : d.op = DiffOp.insert) (hcur : s.currentChunk = some c) :
    stepDiff gap s d =
      { chunks := s.chunks
        currentChunk := some
          { c with
              newText := c.newText ++ d.text
              newRange := ⟨c.newRange.fromPos, s.newPos + d.text.length⟩ }
        oldPos := s.oldPos
        newPos := s.newPos + d.text.length
        unchangedCount := 0
        nextId := s.nextId } := by
  simp [stepDiff, hop, hcur]

/-- stepDiff on an INSERT entry with no open chunk opens one at the
current cursors. -/
theorem stepDiff_insert_noneEq (gap : Nat) (s : GroupState) (d : Diff)
    (hop : d.op = DiffOp.insert) (hcur : s.currentChunk = none) :
    stepDiff gap s d =
      { chunks := s.chunks
        currentChunk := some
          { id := generateChunkId s.nextId
            oldRange := ⟨s.oldPos, s.oldPos⟩
            newRange := ⟨s.newPos, s.newPos + d.text.length⟩
            oldText := []
            newText := d.text
            status := ChunkStatus.pending }
        oldPos := s.oldPos
        newPos := s.newPos + d.text.length
        unchangedCount := 0
        nextId := s.nextId + 1 } := by
  simp [stepDiff, hop, hcur, openChunkAt]

/-- finalizeChunk preserves ranges and texts, so the span property
transfers from the open chunk to the emitted chunk. -/
theorem finalizeChunk_span (c : OpenChunk) (h : OpenSpanLe c) :
    ChunkSpanLe (finalizeChunk c) := h

/-- One grouping step preserves the loop invariant. -/
theorem stepDiff_preserves_inv (gap : Nat) (s : GroupState) (d : Diff)
    (h : GroupInv s) : GroupInv (stepDiff gap s d) := by
  obtain ⟨h1, h2, h3, h4, h5, h6⟩ := h
  cases hop : d.op with
  | equal =>
    cases hcur : s.currentChunk with
    | none =>
      rw [stepDiff_equal_noneEq gap s d hop hcur]
      refine ⟨h1, ?_, h3, ?_, ?_, ?_⟩
      · intro c hc
        have := h2 c hc
        constructor <;> [exact Nat.le_trans this.1 (Nat.le_add_right _ _);
                         exact Nat.le_trans this.2 (Nat.le_add_right _ _)]
      · intro c hc; rw [hcur] at hc; cases hc
      · intro c hc; rw [hcur] at hc; cases hc
      · intro e _ c hc; rw [hcur] at hc; cases hc
    | some c =>
      by_cases hge : gap ≤ s.unchangedCount + d.text.length
      · rw [stepDiff_equal_closeEq gap s d c hop hcur hge]
        refine ⟨?_, ?_, ?_, ?_, ?_, ?_⟩
        · intro x hx
          rcases List.mem_append.mp hx with hx | hx
          · exact h1 x hx
          · rcases List.mem_singleton.mp hx with rfl
            exact finalizeChunk_span c (h4 c hcur)
        · intro x hx
          rcases List.mem_append.mp hx with hx | hx
          · have := h2 x hx
            exact ⟨Nat.le_trans this.1 (Nat.le_add_right _ _),
                   Nat.le_trans this.2 (Nat.le_add_right _ _)⟩
          · rcases List.mem_singleton.mp hx with rfl
            have := h5 c hcur
            exact ⟨Nat.le_trans this.1 (Nat.le_add_right _ _),
                   Nat.le_trans this.2 (Nat.le_add_right _ _)⟩
        · refine List.pairwise_append.mpr ⟨h3, List.pairwise_singleton _ _, ?_⟩
          intro x hx y hy
          rcases List.mem_singleton.mp hy with rfl
          exact h6 x hx c hcur
        · intro x hx; cases hx
        · intro x hx; cases hx
        · intro e _ x hx; cases hx
      · rw [stepDiff_equal_stayEq gap s d c hop hcur (Nat.not_le.mp hge)]
        refine ⟨h1, ?_, h3, ?_, ?_, ?_⟩
        · intro x hx
          have := h2 x hx
          exact ⟨Nat.le_trans this.1 (Nat.le_add_right _ _),
                 Nat.le_trans this.2 (Nat.le_add_right _ _)⟩
        · intro x hx; exact h4 x hx
        · intro x hx
          have := h5 x hx
          exact ⟨Nat.le_trans this.1 (Nat.le_add_right _ _),
                 Nat.le_trans this.2 (Nat.le_add_right _ _)⟩
        · intro e he x hx; exact h6 e he x hx
  | delete =>
    cases hcur : s.currentChunk with
    | some c =>
      rw [stepDiff_delete_someEq gap s d c hop hcur]
      have hspan := h4 c hcur
      have hle := h5 c hcur
      refine ⟨h1, ?_, h3, ?_, ?_, ?_⟩
      · intro x hx
        have := h2 x hx
        exact ⟨Nat.le_trans this.1 (Nat.le_add_right _ _), this.2⟩
      · intro x hx
        rcases Option.some_inj.mp hx with rfl
        refine ⟨?_, hspan.2⟩
        simp only [List.length_append]
        have : c.oldRange.fromPos + c.oldText.length ≤ s.oldPos :=
          Nat.le_trans hspan.1 hle.1
        omega
      · intro x hx
        rcases Option.some_inj.mp hx with rfl
        exact ⟨Nat.le_refl _, hle.2⟩
      · intro e he x hx
        rcases Option.some_inj.mp hx with rfl
        exact h6 e he c hcur
    | none =>
      rw [stepDiff_delete_noneEq gap s d hop hcur]
      refine ⟨h1, ?_, h3, ?_, ?_, ?_⟩
      · intro x hx
        have := h2 x hx
        exact ⟨Nat.le_trans this.1 (Nat.le_add_right _ _), this.2⟩
      · intro x hx
        rcases Option.some_inj.mp hx with rfl
        exact ⟨Nat.le_refl _, Nat.le_refl _⟩
      · intro x hx
        rcases Option.some_inj.mp hx with rfl
        exact ⟨Nat.le_refl _, Nat.le_refl _⟩
      · intro e he x hx
        rcases Option.some_inj.mp hx with rfl
        exact h2 e he
  | insert =>
    cases hcur : s.currentChunk with
    | some c =>
      rw [stepDiff_insert_someEq gap s d c hop hcur]
      have hspan := h4 c hcur
      have hle := h5 c hcur
      refine ⟨h1, ?_, h3, ?_, ?_, ?_⟩
      · intro x hx
        have := h2 x hx
        exact ⟨this.1, Nat.le_trans this.2 (Nat.le_add_right _ _)⟩
      · intro x hx
        rcases Option.some_inj.mp hx with rfl
        refine ⟨hspan.1, ?_⟩
        simp only [List.length_append]
        have : c.newRange.fromPos + c.newText.length ≤ s.newPos :=
          Nat.le_trans hspan.2 hle.2
        omega
      · intro x hx
        rcases Option.some_inj.mp hx with rfl
        exact ⟨hle.1, Nat.le_refl _⟩
      · intro e he x hx
        rcases Option.some_inj.mp hx with rfl
        exact h6 e he c hcur
    | none =>
      rw [stepDiff_insert_noneEq gap s d hop hcur]
      refine ⟨h1, ?_, h3, ?_, ?_, ?_⟩
      · intro x hx
        have := h2 x hx
        exact ⟨this.1, Nat.le_trans this.2 (Nat.le_add_right _ _)⟩
      · intro x hx
        rcases Option.some_inj.mp hx with rfl
        exact ⟨Nat.le_refl _, Nat.le_refl _⟩
      · intro x hx
        rcases Option.some_inj.mp hx with rfl
        exact ⟨Nat.le_refl _, Nat.le_refl _⟩
      · intro e he x hx
        rcases Option.some_inj.mp hx with rfl
        exact h2 e he

/-- The loop invariant holds after folding any diff sequence. -/
theorem foldl_preserves_inv (gap : Nat) (diffs : List Diff) :
    ∀ s : GroupState, GroupInv s → GroupInv (diffs.foldl (stepDiff gap) s) := by
  induction diffs with
  | nil => intro s hs; exact hs
  | cons d rest ih =>
    intro s hs
    rw [List.foldl_cons]
    exact ih _ (stepDiff_preserves_inv gap s d hs)

/-- The initial grouping state satisfies the loop invariant. -/
theorem initGroupState_inv : GroupInv initGroupState := by
  refine ⟨?_, ?_, ?_, ?_, ?_, ?_⟩ <;> simp [initGroupState]

/-- Master structural theorem about the emitted chunk list: for every
diff sequence and every minGapSize the chunks are mutually ordered
(each ends on both sides no later than the next begins) and every
chunk's ranges are at least as long as its texts. -/
theorem groupDiffs_sorted_span (diffs : List Diff) (gap : Nat) :
    (groupDiffsIntoChunks diffs gap).Pairwise ChunkBefore ∧
      ∀ c ∈ groupDiffsIntoChunks diffs gap, ChunkSpanLe c := by
  have hinv := foldl_preserves_inv gap diffs initGroupState initGroupState_inv
  obtain ⟨h1, h2, h3, h4, h5, h6⟩ := hinv
  cases hcur : (diffs.foldl (stepDiff gap) initGroupState).currentChunk with
  | none =>
    simp only [groupDiffsIntoChunks, hcur]
    exact ⟨h3, h1⟩
  | some c =>
    simp only [groupDiffsIntoChunks, hcur]
    constructor
    · refine List.pairwise_append.mpr ⟨h3, List.pairwise_singleton _ _, ?_⟩
      intro x hx y hy
      rcases List.mem_singleton.mp hy with rfl
      have := h6 x hx c hcur
      exact this
    · intro x hx
      rcases List.mem_append.mp hx with hx | hx
      · exact h1 x hx
      · rcases List.mem_singleton.mp hx with rfl
        exact finalizeChunk_span c (h4 c hcur)

/-- C2 counterexample: a 2-character EQUAL run between two deletes is
shorter than minGapSize 50, so it is swallowed into one chunk whose
oldRange spans 4 characters while its oldText holds only the 2 deleted
characters: the claimed equality oldRange.to - oldRange.from =
length(oldText) fails. -/
theorem chunk_span_equality_counterexample :
    ¬ ∀ c ∈ groupDiffsIntoChunks
        [⟨DiffOp.delete, ['a']⟩, ⟨DiffOp.equal, ['e', 'e']⟩, ⟨DiffOp.delete, ['b']⟩] 50,
      c.oldRange.toPos - c.oldRange.fromPos = c.oldText.length := by
  decide

/-- C2 amended: every produced chunk covers at least its texts:
oldRange.to - oldRange.from is at least length(oldText) (stated
addition-side for natural numbers) and symmetrically for new; strict
excess arises exactly when EQUAL runs shorter than minGapSize are
swallowed inside the chunk. -/
theorem chunk_range_covers_text (diffs : List Diff) (minGapSize : Nat)
    (c : DiffChunk) (hc : c ∈ groupDiffsIntoChunks diffs minGapSize) :
    c.oldRange.fromPos + c.oldText.length ≤ c.oldRange.toPos ∧
      c.newRange.fromPos + c.newText.length ≤ c.newRange.toPos :=
  (groupDiffs_sorted_span diffs minGapSize).2 c hc

/-- Witness for the amended span theorem on the swallowed-gap input:
the produced chunk has oldRange 0..4 and a 2-character oldText. -/
theorem chunk_range_covers_text_witness :
    ({ id := "chunk_0", type := ChunkType.delete,
       oldRange := ⟨0, 4⟩, newRange := ⟨0, 0⟩,
       oldText := ['a', 'b'], newText := [],
       status := ChunkStatus.pending } : DiffChunk).oldRange.fromPos +
      ({ id := "chunk_0", type := ChunkType.delete,
         oldRange := ⟨0, 4⟩, newRange := ⟨0, 0⟩,
         oldText := ['a', 'b'], newText := [],
         status := ChunkStatus.pending } : DiffChunk).oldText.length ≤ 4 ∧
      (0 : Nat) + (0 : Nat) ≤ 0 :=
  chunk_range_covers_text
    [⟨DiffOp.delete, ['a']⟩, ⟨DiffOp.equal, ['e', 'e']⟩, ⟨DiffOp.delete, ['b']⟩] 50
    _ (by decide)

/-- C9: for every diff sequence and every minGapSize, the chunk list is
sorted ascending by oldRange.from, consecutive chunks do not overlap
(each chunk starts at or after the previous chunk's end, on the old side
and on the new side alike), and every chunk's ranges are well-formed. -/
theorem chunks_sorted_nonoverlapping (diffs : List Diff) (minGapSize : Nat) :
    (groupDiffsIntoChunks diffs minGapSize).Pairwise
      (fun a b => a.oldRange.fromPos ≤ b.oldRange.fromPos ∧
                  a.newRange.fromPos ≤ b.newRange.fromPos) ∧
    (groupDiffsIntoChunks diffs minGapSize).Pairwise ChunkBefore ∧
    ∀ c ∈ groupDiffsIntoChunks diffs minGapSize,
      c.oldRange.fromPos ≤ c.oldRange.toPos ∧ c.newRange.fromPos ≤ c.newRange.toPos := by
  obtain ⟨hpair, hspan⟩ := groupDiffs_sorted_span diffs minGapSize
  have hwf : ∀ c ∈ groupDiffsIntoChunks diffs minGapSize,
      c.oldRange.fromPos ≤ c.oldRange.toPos ∧ c.newRange.fromPos ≤ c.newRange.toPos := by
    intro c hc
    have := hspan c hc
    exact ⟨Nat.le_trans (Nat.le_add_right _ _) this.1,
           Nat.le_trans (Nat.le_add_right _ _) this.2⟩
  refine ⟨?_, hpair, hwf⟩
  refine List.Pairwise.imp_of_mem ?_ hpair
  intro a b ha _ hab
  have hwa := hwf a ha
  exact ⟨Nat.le_trans hwa.1 hab.1, Nat.le_trans hwa.2 hab.2⟩

/-- Witness for the ordering theorem: two chunks split by a 10-character
gap with minGapSize 5 come out ordered and non-overlapping. -/
theorem chunks_sorted_nonoverlapping_witness :
    (groupDiffsIntoChunks
      [⟨DiffOp.delete, ['a']⟩, ⟨DiffOp.equal, "0123456789".toList⟩,
       ⟨DiffOp.insert, ['b']⟩] 5).Pairwise
      (fun a b => a.oldRange.fromPos ≤ b.oldRange.fromPos ∧
                  a.newRange.fromPos ≤ b.newRange.fromPos) ∧
    (groupDiffsIntoChunks
      [⟨DiffOp.delete, ['a']⟩, ⟨DiffOp.equal, "0123456789".toList⟩,
       ⟨DiffOp.insert, ['b']⟩] 5).Pairwise ChunkBefore ∧
    ∀ c ∈ groupDiffsIntoChunks
      [⟨DiffOp.delete, ['a']⟩, ⟨DiffOp.equal, "0123456789".toList⟩,
       ⟨DiffOp.insert, ['b']⟩] 5,
      c.oldRange.fromPos ≤ c.oldRange.toPos ∧ c.newRange.fromPos ≤ c.newRange.toPos :=
  chunks_sorted_nonoverlapping _ 5

/-- Filtering by accepted ids respects the SameCore relation, since the
filter reads only the id field. -/
theorem forall₂_filter_sameCore (ids : List String) :
    ∀ l₁ l₂ : List DiffChunk, List.Forall₂ SameCore l₁ l₂ →
      List.Forall₂ SameCore (l₁.filter (fun c => ids.contains c.id))
        (l₂.filter (fun c => ids.contains c.id)) := by
  intro l₁ l₂ h
  induction h with
  | nil => exact List.Forall₂.nil
  | cons hab htl ih =>
    rw [List.filter_cons, List.filter_cons]
    have hid : ids.contains _ = ids.contains _ := congrArg ids.contains hab.1
    rw [← hid]
    cases hca : ids.contains _ with
    | false => simpa [hca] using ih
    | true => simpa [hca] using List.Forall₂.cons hab ih

/-- Stable descending insertion respects the SameCore relation, since
the comparison reads only oldRange.from. -/
theorem forall₂_insert_sameCore (a b : DiffChunk) (hab : SameCore a b) :
    ∀ l₁ l₂ : List DiffChunk, List.Forall₂ SameCore l₁ l₂ →
      List.Forall₂ SameCore (insertByFromDesc a l₁) (insertByFromDesc b l₂) := by
  intro l₁ l₂ h
  induction h with
  | nil => exact List.Forall₂.cons hab List.Forall₂.nil
  | cons hxy htl ih =>
    rename_i x y t₁ t₂
    simp only [insertByFromDesc]
    have hcond : (x.oldRange.fromPos ≤ a.oldRange.fromPos) =
        (y.oldRange.fromPos ≤ b.oldRange.fromPos) := by
      rw [hxy.2.1, hab.2.1]
    by_cases hc : x.oldRange.fromPos ≤ a.oldRange.fromPos
    · have hc' : y.oldRange.fromPos ≤ b.oldRange.fromPos := by rw [← hcond]; exact hc
      rw [if_pos hc, if_pos hc']
      exact List.Forall₂.cons hab (List.Forall₂.cons hxy htl)
    · have hc' : ¬ y.oldRange.fromPos ≤ b.oldRange.fromPos := by rw [← hcond]; exact hc
      rw [if_neg hc, if_neg hc']
      exact List.Forall₂.cons hxy ih

/-- The stable descending sort respects the SameCore relation. -/
theorem forall₂_sort_sameCore :
    ∀ l₁ l₂ : List DiffChunk, List.Forall₂ SameCore l₁ l₂ →
      List.Forall₂ SameCore (sortByFromDesc l₁) (sortByFromDesc l₂) := by
  intro l₁ l₂ h
  induction h with
  | nil => exact List.Forall₂.nil
  | cons hab htl ih =>
    simp only [sortByFromDesc]
    exact forall₂_insert_sameCore _ _ hab _ _ ih

/-- Splicing a SameCore-related chunk sequence over the same start
content yields the same result: the splice reads only oldRange and
newText. -/
theorem foldl_splice_sameCore :
    ∀ l₁ l₂ : List DiffChunk, List.Forall₂ SameCore l₁ l₂ →
      ∀ init : List Char,
        l₁.foldl (fun result c =>
          result.take c.oldRange.fromPos ++ c.newText ++ result.drop c.oldRange.toPos) init =
        l₂.foldl (fun result c =>
          result.take c.oldRange.fromPos ++ c.newText ++ result.drop c.oldRange.toPos) init := by
  intro l₁ l₂ h
  induction h with
  | nil => intro _; rfl
  | cons hab htl ih =>
    intro init
    rw [List.foldl_cons, List.foldl_cons, hab.2.1, hab.2.2.2.2]
    exact ih _

/-- C10: applyChunks does not read the status field.  For any two chunk
lists that agree position-wise on ids, ranges and texts but carry
arbitrary statuses, the result is the same: only the decisions select
what is applied. -/
theorem applyChunks_ignores_status (original : List Char)
    (chunks₁ chunks₂ : List DiffChunk) (decisions : List ChunkDecision)
    (h : List.Forall₂ SameCore chunks₁ chunks₂) :
    applyChunks original chunks₁ decisions = applyChunks original chunks₂ decisions := by
  unfold applyChunks
  exact foldl_splice_sameCore _ _
    (forall₂_sort_sameCore _ _ (forall₂_filter_sameCore _ _ _ h)) _

/-- Witness for the status-independence theorem: the same chunk once
pending and once rejected, accepted by the decisions, gives the same
output. -/
theorem applyChunks_ignores_status_witness :
    applyChunks "old".toList
      [{ id := "k", type := ChunkType.change,
         oldRange := ⟨0, 3⟩, newRange := ⟨0, 3⟩,
         oldText := "old".toList, newText := "new".toList,
         status := ChunkStatus.pending }]
      [⟨"k", true⟩] =
    applyChunks "old".toList
      [{ id := "k", type := ChunkType.change,
         oldRange := ⟨0, 3⟩, newRange := ⟨0, 3⟩,
         oldText := "old".toList, newText := "new".toList,
         status := ChunkStatus.rejected }]
      [⟨"k", true⟩] :=
  applyChunks_ignores_status _ _ _ _
    (List.Forall₂.cons ⟨rfl, rfl, rfl, rfl, rfl⟩ List.Forall₂.nil)

/-- eqsLen distributes over cons. -/
theorem eqsLen_cons (d : Diff) (l : List Diff) :
    eqsLen (d :: l) = d.text.length + eqsLen l := by
  simp [eqsLen]

/-- A non-EQUAL entry never emits a chunk, always leaves a chunk open,
and resets the unchanged-run counter. -/
theorem stepDiff_edit (gap : Nat) (s : GroupState) (d : Diff)
    (hd : d.op ≠ DiffOp.equal) :
    (stepDiff gap s d).chunks = s.chunks ∧
    (∃ c, (stepDiff gap s d).currentChunk = some c) ∧
    (stepDiff gap s d).unchangedCount = 0 := by
  cases hop : d.op with
  | equal => exact absurd hop hd
  | delete =>
    cases hcur : s.currentChunk with
    | some c =>
      rw [stepDiff_delete_someEq gap s d c hop hcur]
      exact ⟨rfl, ⟨_, rfl⟩, rfl⟩
    | none =>
      rw [stepDiff_delete_noneEq gap s d hop hcur]
      exact ⟨rfl, ⟨_, rfl⟩, rfl⟩
  | insert =>
    cases hcur : s.currentChunk with
    | some c =>
      rw [stepDiff_insert_someEq gap s d c hop hcur]
      exact ⟨rfl, ⟨_, rfl⟩, rfl⟩
    | none =>
      rw [stepDiff_insert_noneEq gap s d hop hcur]
      exact ⟨rfl, ⟨_, rfl⟩, rfl⟩

/-- Folding a run of non-EQUAL entries never emits a chunk, and when the
run is non-empty it ends with a chunk open and the counter at zero. -/
theorem foldl_edits (gap : Nat) :
    ∀ (es : List Diff), (∀ d ∈ es, d.op ≠ DiffOp.equal) → ∀ s : GroupState,
      (es.foldl (stepDiff gap) s).chunks = s.chunks ∧
      (es ≠ [] →
        (∃ c, (es.foldl (stepDiff gap) s).currentChunk = some c) ∧
        (es.foldl (stepDiff gap) s).unchangedCount = 0) := by
  intro es
  induction es with
  | nil => intro _ s; exact ⟨rfl, fun hne => absurd rfl hne⟩
  | cons d rest ih =>
    intro h s
    have hstep := stepDiff_edit gap s d (h d (List.mem_cons_self d rest))
    have hrest := ih (fun d' hd' => h d' (List.mem_cons_of_mem d hd')) (stepDiff gap s d)
    rw [List.foldl_cons]
    constructor
    · rw [hrest.1, hstep.1]
    · intro _
      by_cases hr : rest = []
      · subst hr; exact ⟨hstep.2.1, hstep.2.2⟩
      · exact hrest.2 hr

/-- Folding a run of EQUAL entries over an open chunk whose accumulated
unchanged run stays below the threshold leaves the chunk open and
untouched and only accumulates the counter. -/
theorem foldl_equal_stay (gap : Nat) :
    ∀ (eqs : List Diff), (∀ d ∈ eqs, d.op = DiffOp.equal) →
    ∀ (s : GroupState) (c : OpenChunk), s.currentChunk = some c →
      s.unchangedCount + eqsLen eqs < gap →
      (eqs.foldl (stepDiff gap) s).chunks = s.chunks ∧
      (eqs.foldl (stepDiff gap) s).currentChunk = some c ∧
      (eqs.foldl (stepDiff gap) s).unchangedCount = s.unchangedCount + eqsLen eqs := by
  intro eqs
  induction eqs with
  | nil =>
    intro _ s c hc _
    refine ⟨rfl, hc, ?_⟩
    simp [eqsLen]
  | cons d rest ih =>
    intro h s c hc hlt
    have hd := h d (List.mem_cons_self d rest)
    rw [eqsLen_cons] at hlt
    have hlt1 : s.unchangedCount + d.text.length < gap := by omega
    rw [List.foldl_cons, stepDiff_equal_stayEq gap s d c hd hc hlt1]
    have hih := ih (fun d' hd' => h d' (List.mem_cons_of_mem d hd'))
      { s with
          unchangedCount := s.unchangedCount + d.text.length
          oldPos := s.oldPos + d.text.length
          newPos := s.newPos + d.text.length }
      c hc (by show s.unchangedCount + d.text.length + eqsLen rest < gap; omega)
    refine ⟨hih.1, hih.2.1, ?_⟩
    rw [hih.2.2]
    show s.unchangedCount + d.text.length + eqsLen rest = s.unchangedCount + eqsLen (d :: rest)
    rw [eqsLen_cons]
    omega

/-- Folding a non-empty run of EQUAL entries over an open chunk whose
accumulated unchanged run reaches the threshold finalizes that chunk and
leaves none open. -/
theorem foldl_equal_close (gap : Nat) :
    ∀ (eqs : List Diff), (∀ d ∈ eqs, d.op = DiffOp.equal) →
    ∀ (s : GroupState) (c : OpenChunk), s.currentChunk = some c →
      gap ≤ s.unchangedCount + eqsLen eqs → eqs ≠ [] →
      (eqs.foldl (stepDiff gap) s).chunks = s.chunks ++ [finalizeChunk c] ∧
      (eqs.foldl (stepDiff gap) s).currentChunk = none := by
  intro eqs
  induction eqs with
  | nil => intro _ s c _ _ hne; exact absurd rfl hne
  | cons d rest ih =>
    intro h s c hc hge _
    have hd := h d (List.mem_cons_self d rest)
    rw [eqsLen_cons] at hge
    rw [List.foldl_cons]
    by_cases hge1 : gap ≤ s.unchangedCount + d.text.length
    · rw [stepDiff_equal_closeEq gap s d c hd hc hge1]
      have hrest := foldl_equal_none gap rest
        (fun d' hd' => h d' (List.mem_cons_of_mem d hd'))
        { chunks := s.chunks ++ [finalizeChunk c]
          currentChunk := none
          oldPos := s.oldPos + d.text.length
          newPos := s.newPos + d.text.length
          unchangedCount := 0
          nextId := s.nextId } rfl
      exact ⟨hrest.2, hrest.1⟩
    · rw [stepDiff_equal_stayEq gap s d c hd hc (Nat.not_le.mp hge1)]
      have hrestne : rest ≠ [] := by
        intro h0
        subst h0
        simp [eqsLen] at hge
        omega
      exact ih (fun d' hd' => h d' (List.mem_cons_of_mem d hd'))
        { s with
            unchangedCount := s.unchangedCount + d.text.length
            oldPos := s.oldPos + d.text.length
            newPos := s.newPos + d.text.length }
        c hc (by show gap ≤ s.unchangedCount + d.text.length + eqsLen rest; omega) hrestne

/-- C6: the split decision is made strictly on contiguous EQUAL run
length.  For two non-empty runs of edit entries separated by a non-empty
contiguous run of EQUAL entries of total length L, the grouping emits one
chunk when L < minGapSize (so L ≤ minGapSize - 1 merges the edits) and
two chunks when minGapSize ≤ L (the equal run splits them). -/
theorem gap_boundary_rule (es1 eqs es2 : List Diff) (gap : Nat)
    (h1 : es1 ≠ []) (h2 : es2 ≠ []) (heqne : eqs ≠ [])
    (he1 : ∀ d ∈ es1, d.op ≠ DiffOp.equal)
    (he2 : ∀ d ∈ es2, d.op ≠ DiffOp.equal)
    (heq : ∀ d ∈ eqs, d.op = DiffOp.equal) :
    (eqsLen eqs < gap →
      (groupDiffsIntoChunks (es1 ++ eqs ++ es2) gap).length = 1) ∧
    (gap ≤ eqsLen eqs →
      (groupDiffsIntoChunks (es1 ++ eqs ++ es2) gap).length = 2) := by
  have hes1 := foldl_edits gap es1 he1 initGroupState
  obtain ⟨hch1, hne1⟩ := hes1
  obtain ⟨⟨c1, hc1⟩, hcnt1⟩ := hne1 h1
  have hch1' : (es1.foldl (stepDiff gap) initGroupState).chunks = [] := hch1
  constructor
  · intro hlt
    have hstay := foldl_equal_stay gap eqs heq
      (es1.foldl (stepDiff gap) initGroupState) c1 hc1 (by omega)
    have hes2 := foldl_edits gap es2 he2
      (eqs.foldl (stepDiff gap) (es1.foldl (stepDiff gap) initGroupState))
    obtain ⟨hch2, hne2⟩ := hes2
    obtain ⟨⟨c2, hc2⟩, _⟩ := hne2 h2
    simp only [groupDiffsIntoChunks, List.foldl_append, hc2]
    rw [hch2, hstay.1, hch1']
    rfl
  · intro hge
    have hclose := foldl_equal_close gap eqs heq
      (es1.foldl (stepDiff gap) initGroupState) c1 hc1 (by omega) heqne
    have hes2 := foldl_edits gap es2 he2
      (eqs.foldl (stepDiff gap) (es1.foldl (stepDiff gap) initGroupState))
    obtain ⟨hch2, hne2⟩ := hes2
    obtain ⟨⟨c2, hc2⟩, _⟩ := hne2 h2
    simp only [groupDiffsIntoChunks, List.foldl_append, hc2]
    rw [hch2, hclose.1, hch1']
    rfl

/-- Witness for the boundary theorem: a delete and an insert separated
by 2 unchanged characters merge into one chunk at minGapSize 3 and split
into two chunks at minGapSize 2. -/
theorem gap_boundary_rule_witness :
    (groupDiffsIntoChunks
      [⟨DiffOp.delete, ['a']⟩, ⟨DiffOp.equal, ['x', 'y']⟩, ⟨DiffOp.insert, ['b']⟩]
      3).length = 1 ∧
    (groupDiffsIntoChunks
      [⟨DiffOp.delete, ['a']⟩, ⟨DiffOp.equal, ['x', 'y']⟩, ⟨DiffOp.insert, ['b']⟩]
      2).length = 2 :=
  ⟨(gap_boundary_rule [⟨DiffOp.delete, ['a']⟩] [⟨DiffOp.equal, ['x', 'y']⟩]
      [⟨DiffOp.insert, ['b']⟩] 3 (by decide) (by decide) (by decide)
      (by decide) (by decide) (by decide)).1 (by decide),
   (gap_boundary_rule [⟨DiffOp.delete, ['a']⟩] [⟨DiffOp.equal, ['x', 'y']⟩]
      [⟨DiffOp.insert, ['b']⟩] 2 (by decide) (by decide) (by decide)
      (by decide) (by decide) (by decide)).2 (by decide)⟩
